import Mathlib

/-!
Verification development for the cut/unfitted finite-element notebooks
(CutFEM.ipynb, intlset.ipynb, MoL_TraceFEM.ipynb) and the numerical core
they drive.  The notebooks are orchestration scripts over an external
unfitted-FEM engine; where a claim is decided by notebook code the
definitions below embed that code directly, and where it is decided by the
external engine (CutInfo, Integrate, GetFacetsWithNeighborTypes,
RestrictGFInTime, masked matrix inverse) the engine is modelled from the
specification, as marked in each doc comment.

All arithmetic is over `ℚ`: the notebooks' quantities are real numbers and
the geometric statements under verification are exact-arithmetic
statements (geometric exactness, mask algebra, loop arithmetic), not
floating-point ones.
-/

/-- Modelled from the spec: the sign convention applied to a nodal level-set
value by the element classifier (spec 4.2 / design note on exact zeros).
`true` means the value lies on the negative side; an exact zero is resolved
by the fixed configurable convention `conv` (`conv = true`: zero counts as
negative). -/
def lsetSign (conv : Bool) (v : ℚ) : Bool :=
  if v < 0 then true else if v = 0 then conv else false

/-- The three element classifications of the CutInfo class (CutFEM.ipynb
cell 21): NEG = only negative level-set values, POS = only positive values,
IF = cut element. -/
inductive DomainTag where
  | NEG
  | POS
  | IF
  deriving DecidableEq

/-- Modelled from the spec: the HASNEG predicate of CutInfo — true iff some
nodal value of the element evaluates with negative sign. -/
def elemHasNeg (conv : Bool) (vals : List ℚ) : Bool :=
  vals.any (fun v => lsetSign conv v)

/-- Modelled from the spec: the HASPOS predicate of CutInfo — true iff some
nodal value of the element evaluates with positive sign. -/
def elemHasPos (conv : Bool) (vals : List ℚ) : Bool :=
  vals.any (fun v => !lsetSign conv v)

/-- Modelled from the spec: CutInfo's per-element classification, a pure
sign-vector check on the nodal values of the piecewise-linear level-set
field (spec 4.2). -/
def classifyElement (conv : Bool) (vals : List ℚ) : DomainTag :=
  if elemHasNeg conv vals then
    if elemHasPos conv vals then DomainTag.IF else DomainTag.NEG
  else DomainTag.POS

theorem elemHasNeg_iff (conv : Bool) (vals : List ℚ) :
    elemHasNeg conv vals = true ↔ ∃ v ∈ vals, lsetSign conv v = true := by
  simp [elemHasNeg, List.any_eq_true]

theorem elemHasPos_iff (conv : Bool) (vals : List ℚ) :
    elemHasPos conv vals = true ↔ ∃ v ∈ vals, lsetSign conv v = false := by
  simp [elemHasPos, List.any_eq_true]

theorem elemHasNeg_eq_false_iff (conv : Bool) (vals : List ℚ) :
    elemHasNeg conv vals = false ↔ ∀ v ∈ vals, lsetSign conv v = false := by
  rcases h : elemHasNeg conv vals with _ | _
  · simp only [true_iff]
    intro v hv
    rcases hs : lsetSign conv v with _ | _
    · rfl
    · have := (elemHasNeg_iff conv vals).mpr ⟨v, hv, hs⟩
      simp [h] at this
  · simp only [Bool.true_eq_false, false_iff]
    intro hall
    obtain ⟨v, hv, hs⟩ := (elemHasNeg_iff conv vals).mp h
    have := hall v hv
    simp [this] at hs

theorem elemHasPos_eq_false_iff (conv : Bool) (vals : List ℚ) :
    elemHasPos conv vals = false ↔ ∀ v ∈ vals, lsetSign conv v = true := by
  rcases h : elemHasPos conv vals with _ | _
  · simp only [true_iff]
    intro v hv
    rcases hs : lsetSign conv v with _ | _
    · have := (elemHasPos_iff conv vals).mpr ⟨v, hv, hs⟩
      simp [h] at this
    · rfl
  · simp only [Bool.true_eq_false, false_iff]
    intro hall
    obtain ⟨v, hv, hs⟩ := (elemHasPos_iff conv vals).mp h
    have := hall v hv
    simp [this] at hs

theorem classifyElement_eq_NEG_iff (conv : Bool) (vals : List ℚ) :
    classifyElement conv vals = DomainTag.NEG ↔
      elemHasNeg conv vals = true ∧ elemHasPos conv vals = false := by
  unfold classifyElement
  rcases hn : elemHasNeg conv vals <;> rcases hp : elemHasPos conv vals <;> simp

theorem classifyElement_eq_POS_iff (conv : Bool) (vals : List ℚ) :
    classifyElement conv vals = DomainTag.POS ↔ elemHasNeg conv vals = false := by
  unfold classifyElement
  rcases hn : elemHasNeg conv vals <;> rcases hp : elemHasPos conv vals <;> simp

theorem classifyElement_eq_IF_iff (conv : Bool) (vals : List ℚ) :
    classifyElement conv vals = DomainTag.IF ↔
      elemHasNeg conv vals = true ∧ elemHasPos conv vals = true := by
  unfold classifyElement
  rcases hn : elemHasNeg conv vals <;> rcases hp : elemHasPos conv vals <;> simp

theorem hasneg_or_haspos (conv : Bool) (vals : List ℚ) (hne : vals ≠ []) :
    elemHasNeg conv vals = true ∨ elemHasPos conv vals = true := by
  obtain ⟨w, ws, rfl⟩ := List.exists_cons_of_ne_nil hne
  rcases hw : lsetSign conv w with _ | _
  · exact Or.inr ((elemHasPos_iff conv _).mpr ⟨w, by simp, hw⟩)
  · exact Or.inl ((elemHasNeg_iff conv _).mpr ⟨w, by simp, hw⟩)

/-- C2: for every element, exactly one of {NEG, POS, IF} holds; NEG (resp.
POS) holds iff all nodal values have negative (resp. positive) sign under
the zero convention; IF holds iff the values are not all of the same sign;
HASNEG (resp. HASPOS) holds iff some vertex value has negative (resp.
positive) sign; and every cut element satisfies both HASNEG and HASPOS. -/
theorem cutInfo_classification_invariant (conv : Bool) (vals : List ℚ)
    (hne : vals ≠ []) :
    ((classifyElement conv vals = DomainTag.NEG ∨
      classifyElement conv vals = DomainTag.POS ∨
      classifyElement conv vals = DomainTag.IF) ∧
     ¬ (classifyElement conv vals = DomainTag.NEG ∧
        classifyElement conv vals = DomainTag.POS) ∧
     ¬ (classifyElement conv vals = DomainTag.NEG ∧
        classifyElement conv vals = DomainTag.IF) ∧
     ¬ (classifyElement conv vals = DomainTag.POS ∧
        classifyElement conv vals = DomainTag.IF)) ∧
    (classifyElement conv vals = DomainTag.NEG ↔
      ∀ v ∈ vals, lsetSign conv v = true) ∧
    (classifyElement conv vals = DomainTag.POS ↔
      ∀ v ∈ vals, lsetSign conv v = false) ∧
    (classifyElement conv vals = DomainTag.IF ↔
      ¬ ((∀ v ∈ vals, lsetSign conv v = true) ∨
         (∀ v ∈ vals, lsetSign conv v = false))) ∧
    (elemHasNeg conv vals = true ↔ ∃ v ∈ vals, lsetSign conv v = true) ∧
    (elemHasPos conv vals = true ↔ ∃ v ∈ vals, lsetSign conv v = false) ∧
    (classifyElement conv vals = DomainTag.IF →
      elemHasNeg conv vals = true ∧ elemHasPos conv vals = true) := by
  have hor := hasneg_or_haspos conv vals hne
  refine ⟨?_, ?_, ?_, ?_, elemHasNeg_iff _ _, elemHasPos_iff _ _, ?_⟩
  · constructor
    · rcases classifyElement conv vals with _ | _ | _ <;> simp
    · refine ⟨?_, ?_, ?_⟩ <;> rintro ⟨h1, h2⟩ <;> rw [h1] at h2 <;> exact absurd h2 (by simp)
  · rw [classifyElement_eq_NEG_iff, ← elemHasPos_eq_false_iff]
    constructor
    · exact fun h => h.2
    · intro hp
      refine ⟨?_, hp⟩
      rcases hor with h | h
      · exact h
      · rw [hp] at h; exact absurd h (by simp)
  · rw [classifyElement_eq_POS_iff, ← elemHasNeg_eq_false_iff]
  · rw [classifyElement_eq_IF_iff]
    rw [← elemHasPos_eq_false_iff, ← elemHasNeg_eq_false_iff]
    push_neg
    constructor
    · rintro ⟨h1, h2⟩
      exact ⟨by simp [h2], by simp [h1]⟩
    · rintro ⟨h1, h2⟩
      exact ⟨by simpa using h2, by simpa using h1⟩
  · rw [classifyElement_eq_IF_iff]
    exact fun h => h

theorem cutInfo_classification_invariant_witness :
    elemHasNeg true [-1, 1] = true ∧ elemHasPos true [-1, 1] = true :=
  (cutInfo_classification_invariant true [-1, 1] (by simp)).2.2.2.2.2.2 (by decide)

/-- Modelled from the spec: `GetDofsOfElements(space, elset)` — the dof
activity mask of a finite-element space for an element subset: a dof is
active iff at least one element of the subset contains it in its support
(spec 4.4).  `incid e d` is the dof-element support incidence of the
space. -/
def GetDofsOfElements (m n : ℕ) (incid : Fin m → Fin n → Bool)
    (elset : Fin m → Bool) : Fin n → Bool :=
  fun d => (List.finRange m).any (fun e => elset e && incid e d)

/-- Modelled from the spec: `CompoundBitArray` — concatenation of the two
component masks of the product space `VhG = FESpace([Vh, Vh])`; a compound
dof is a component dof tagged by its component. -/
def CompoundBitArray (n : ℕ) (maskA maskB : Fin n → Bool) :
    Fin n ⊕ Fin n → Bool :=
  Sum.elim maskA maskB

/-- Source CutFEM.ipynb cell 23: `freedofs = VhG.FreeDofs();
freedofs &= CompoundBitArray([GetDofsOfElements(Vh,hasneg),
GetDofsOfElements(Vh,haspos)])`.  `bc` is the externally supplied
boundary-condition free-dof mask `VhG.FreeDofs()`; the in-place `&=` is the
pointwise Boolean conjunction. -/
def cutProblemFreeDofs (m n : ℕ) (incid : Fin m → Fin n → Bool)
    (bc : Fin n ⊕ Fin n → Bool) (hasneg haspos : Fin m → Bool) :
    Fin n ⊕ Fin n → Bool :=
  fun d => bc d &&
    CompoundBitArray n (GetDofsOfElements m n incid hasneg)
      (GetDofsOfElements m n incid haspos) d

/-- C3: for every classification state (every pair of HASNEG/HASPOS element
sets), the free-dof mask passed to the linear solve equals the intersection
of the externally supplied boundary-condition mask and the compound
activity mask, is a subset of the boundary-condition mask, and the
activity masks have the dof-support semantics of spec 4.4. -/
theorem activeSet_freedofs_invariant (m n : ℕ) (incid : Fin m → Fin n → Bool)
    (bc : Fin n ⊕ Fin n → Bool) (hasneg haspos : Fin m → Bool) :
    (∀ d, cutProblemFreeDofs m n incid bc hasneg haspos d = true ↔
      (bc d = true ∧
       CompoundBitArray n (GetDofsOfElements m n incid hasneg)
         (GetDofsOfElements m n incid haspos) d = true)) ∧
    (∀ d, cutProblemFreeDofs m n incid bc hasneg haspos d = true →
      bc d = true) ∧
    (∀ elset : Fin m → Bool, ∀ d : Fin n,
      GetDofsOfElements m n incid elset d = true ↔
        ∃ e : Fin m, elset e = true ∧ incid e d = true) := by
  refine ⟨?_, ?_, ?_⟩
  · intro d
    simp [cutProblemFreeDofs]
  · intro d h
    have := (Bool.and_eq_true _ _).mp h
    exact this.1
  · intro elset d
    simp [GetDofsOfElements, List.any_eq_true, List.mem_finRange]

/-- Modelled from the spec: the restricted solve of the linear-algebra
backend (spec §6): `a.mat.Inverse(freedofs) * rhs` solves the linear system
reduced to the dofs marked in the mask and returns a vector that vanishes
on every non-free dof.  `reducedSolve` is the external reduced solver,
applied only on the masked block. -/
def maskedInverseApply (n : ℕ) (reducedSolve : (Fin n → ℚ) → (Fin n → ℚ))
    (mask : Fin n → Bool) (rhs : Fin n → ℚ) : Fin n → ℚ :=
  fun i => if mask i then reducedSolve rhs i else 0

/-- Source CutFEM.ipynb cell 44: `rhs.data = f.vec - a.mat * gfu.vec;
update.data = a.mat.Inverse(freedofs) * rhs; gfu.vec.data += update`.
`amat` is the assembled matrix as a linear operator on coefficient
vectors. -/
def SolveLinearSystem (n : ℕ) (amat : (Fin n → ℚ) → (Fin n → ℚ))
    (fvec : Fin n → ℚ) (freedofs : Fin n → Bool)
    (reducedSolve : (Fin n → ℚ) → (Fin n → ℚ)) (gfu : Fin n → ℚ) :
    Fin n → ℚ :=
  let rhs := fun i => fvec i - amat gfu i
  let update := maskedInverseApply n reducedSolve freedofs rhs
  fun i => gfu i + update i

/-- C10: SolveLinearSystem modifies the solution vector only at dofs marked
true in `freedofs`: the added update is the masked inverse applied to the
homogenized residual `f - A*gfu` and vanishes on all non-free dofs, so
every entry of `gfu` at a non-free dof (in particular Dirichlet boundary
values written before the call) is left unchanged. -/
theorem solveLinearSystem_frame_effect (n : ℕ)
    (amat : (Fin n → ℚ) → (Fin n → ℚ)) (fvec : Fin n → ℚ)
    (freedofs : Fin n → Bool)
    (reducedSolve : (Fin n → ℚ) → (Fin n → ℚ)) (gfu : Fin n → ℚ) :
    (∀ i, SolveLinearSystem n amat fvec freedofs reducedSolve gfu i =
      gfu i + maskedInverseApply n reducedSolve freedofs
        (fun j => fvec j - amat gfu j) i) ∧
    (∀ i, freedofs i = false →
      maskedInverseApply n reducedSolve freedofs
        (fun j => fvec j - amat gfu j) i = 0) ∧
    (∀ i, freedofs i = false →
      SolveLinearSystem n amat fvec freedofs reducedSolve gfu i = gfu i) := by
  refine ⟨fun i => rfl, ?_, ?_⟩
  · intro i h
    simp [maskedInverseApply, h]
  · intro i h
    show gfu i + maskedInverseApply n reducedSolve freedofs _ i = gfu i
    simp [maskedInverseApply, h]

/-- Source intlset.ipynb (space-time heat driver): the slab loop
`while tend - told > delta_t/2: ...; told = told + delta_t`, with an
explicit fuel bound making the recursion structural.  The state is the
current physical time `told` and the number of slabs executed so far;
MoL_TraceFEM.ipynb's loop `while told < T - dt/2` has the identical guard
since `told < T - dt/2 ↔ T - told > dt/2`. -/
def timeLoopAux (tend delta_t : ℚ) : ℕ → ℚ → ℕ → ℚ × ℕ
  | 0, told, count => (told, count)
  | fuel + 1, told, count =>
    if delta_t / 2 < tend - told then
      timeLoopAux tend delta_t fuel (told + delta_t) (count + 1)
    else (told, count)

/-- The slab loop started from `told = 0` as in the notebooks. -/
def timeLoop (tend delta_t : ℚ) (fuel : ℕ) : ℚ × ℕ :=
  timeLoopAux tend delta_t fuel 0 0

theorem timeLoopAux_spec (tend delta_t : ℚ) (hd : 0 < delta_t) :
    ∀ (fuel count : ℕ),
      tend ≤ count * delta_t + fuel * delta_t →
      (∀ m : ℕ, m < count → delta_t / 2 < tend - m * delta_t) →
      (timeLoopAux tend delta_t fuel (count * delta_t) count).1 =
        (timeLoopAux tend delta_t fuel (count * delta_t) count).2 * delta_t ∧
      tend - (timeLoopAux tend delta_t fuel (count * delta_t) count).1 ≤
        delta_t / 2 ∧
      (∀ m : ℕ, m < (timeLoopAux tend delta_t fuel (count * delta_t) count).2 →
        delta_t / 2 < tend - m * delta_t) := by
  intro fuel
  induction fuel with
  | zero =>
    intro count hbound hinv
    refine ⟨by simp [timeLoopAux], ?_, ?_⟩
    · simp only [timeLoopAux]
      have : (0 : ℚ) < delta_t / 2 := by linarith
      simp only [Nat.cast_zero, zero_mul, add_zero] at hbound
      linarith
    · simpa [timeLoopAux] using hinv
  | succ fuel ih =>
    intro count hbound hinv
    by_cases hguard : delta_t / 2 < tend - count * delta_t
    · have hstep : (count : ℚ) * delta_t + delta_t = ((count + 1 : ℕ) : ℚ) * delta_t := by
        push_cast
        ring
      have hrw : timeLoopAux tend delta_t (fuel + 1) (count * delta_t) count =
          timeLoopAux tend delta_t fuel (((count + 1 : ℕ) : ℚ) * delta_t) (count + 1) := by
        rw [timeLoopAux, if_pos hguard, hstep]
      rw [hrw]
      apply ih (count + 1)
      · push_cast
        push_cast at hbound
        linarith
      · intro m hm
        rcases Nat.lt_succ_iff_lt_or_eq.mp hm with h | h
        · exact hinv m h
        · subst h
          exact hguard
    · have hrw : timeLoopAux tend delta_t (fuel + 1) (count * delta_t) count =
          ((count : ℚ) * delta_t, count) := by
        rw [timeLoopAux, if_neg hguard]
      rw [hrw]
      exact ⟨rfl, by linarith, hinv⟩

/-- C7: for every `tend > 0` and `delta_t > 0` the slab loop terminates
(with any fuel bound `fuel` satisfying `tend ≤ fuel * delta_t` the guard is
false at exit and the result no longer depends on the fuel); at exit
`told = n * delta_t` where `n` is the number of slabs executed,
`|tend - told| ≤ delta_t / 2`, and slab `m` is executed iff the remaining
physical time before it exceeds half a time step, so no degenerate final
slab of length below `delta_t / 2` is processed. -/
theorem timeLoop_terminal_condition (tend delta_t : ℚ) (fuel : ℕ)
    (hd : 0 < delta_t) (ht : 0 < tend) (hfuel : tend ≤ fuel * delta_t) :
    (timeLoop tend delta_t fuel).1 =
      (timeLoop tend delta_t fuel).2 * delta_t ∧
    tend - (timeLoop tend delta_t fuel).1 ≤ delta_t / 2 ∧
    |tend - (timeLoop tend delta_t fuel).1| ≤ delta_t / 2 ∧
    (∀ m : ℕ, m < (timeLoop tend delta_t fuel).2 ↔
      delta_t / 2 < tend - m * delta_t) ∧
    (∀ fuel' : ℕ, tend ≤ fuel' * delta_t →
      timeLoop tend delta_t fuel' = timeLoop tend delta_t fuel) := by
  have key : ∀ g : ℕ, tend ≤ g * delta_t →
      (timeLoop tend delta_t g).1 = (timeLoop tend delta_t g).2 * delta_t ∧
      tend - (timeLoop tend delta_t g).1 ≤ delta_t / 2 ∧
      (∀ m : ℕ, m < (timeLoop tend delta_t g).2 →
        delta_t / 2 < tend - m * delta_t) := by
    intro g hg
    have h0 : (0 : ℚ) = (0 : ℕ) * delta_t := by simp
    have := timeLoopAux_spec tend delta_t hd g 0
      (by simpa using hg) (by intro m hm; exact absurd hm (Nat.not_lt_zero m))
    simpa [timeLoop, ← h0] using this
  obtain ⟨h1, h2, h3⟩ := key fuel hfuel
  have hiff : ∀ m : ℕ, m < (timeLoop tend delta_t fuel).2 ↔
      delta_t / 2 < tend - m * delta_t := by
    intro m
    constructor
    · exact h3 m
    · intro hm
      by_contra hge
      push_neg at hge
      have : ((timeLoop tend delta_t fuel).2 : ℚ) * delta_t ≤ m * delta_t := by
        apply mul_le_mul_of_nonneg_right _ (le_of_lt hd)
        exact_mod_cast hge
      rw [← h1] at this
      linarith
  refine ⟨h1, h2, ?_, hiff, ?_⟩
  · rw [abs_le]
    constructor
    · rcases Nat.eq_zero_or_pos (timeLoop tend delta_t fuel).2 with h | h
      · rw [h1, h]
        push_cast
        linarith
      · obtain ⟨k, hk⟩ := Nat.exists_eq_add_of_lt h
        have hk' : (timeLoop tend delta_t fuel).2 = k + 1 := by omega
        have := h3 k (by omega)
        rw [h1, hk']
        push_cast
        linarith
    · exact h2
  · intro fuel' hfuel'
    obtain ⟨h1', h2', h3'⟩ := key fuel' hfuel'
    have hiff' : ∀ m : ℕ, m < (timeLoop tend delta_t fuel').2 ↔
        delta_t / 2 < tend - m * delta_t := by
      intro m
      constructor
      · exact h3' m
      · intro hm
        by_contra hge
        push_neg at hge
        have : ((timeLoop tend delta_t fuel').2 : ℚ) * delta_t ≤ m * delta_t := by
          apply mul_le_mul_of_nonneg_right _ (le_of_lt hd)
          exact_mod_cast hge
        rw [← h1'] at this
        linarith
    have hcount : (timeLoop tend delta_t fuel').2 = (timeLoop tend delta_t fuel).2 := by
      by_contra hne
      rcases Nat.lt_or_ge (timeLoop tend delta_t fuel').2 (timeLoop tend delta_t fuel).2 with h | h
      · have := (hiff _).mp h
        have h2'' := (hiff' _).mpr this
        omega
      · rcases Nat.lt_or_ge (timeLoop tend delta_t fuel).2 (timeLoop tend delta_t fuel').2 with hh | hh
        · have := (hiff' _).mp hh
          have := (hiff _).mpr this
          omega
        · omega
    have : (timeLoop tend delta_t fuel').1 = (timeLoop tend delta_t fuel).1 := by
      rw [h1, h1', hcount]
    exact Prod.ext this hcount

theorem timeLoop_terminal_condition_witness :
    (timeLoop 1 (1/32) 32).1 = (timeLoop 1 (1/32) 32).2 * (1/32) ∧
    (1 : ℚ) - (timeLoop 1 (1/32) 32).1 ≤ (1/32) / 2 ∧
    |(1 : ℚ) - (timeLoop 1 (1/32) 32).1| ≤ (1/32) / 2 ∧
    (∀ m : ℕ, m < (timeLoop 1 (1/32) 32).2 ↔
      (1/32 : ℚ) / 2 < 1 - m * (1/32)) ∧
    (∀ fuel' : ℕ, (1 : ℚ) ≤ fuel' * (1/32) →
      timeLoop 1 (1/32) fuel' = timeLoop 1 (1/32) 32) :=
  timeLoop_terminal_condition 1 (1/32) 32 (by norm_num) (by norm_num)
    (by norm_num)

/-- Source intlset.ipynb cell 5: the physical time within a slab,
`t = coef_told + coef_delta_t * tref`, an affine map of the reference time
`tref ∈ [0,1]` onto `[told, told + delta_t]`. -/
def physTime (told delta_t tref : ℚ) : ℚ := told + delta_t * tref

/-- A space-time grid function of the nodal-in-time space-time space
`SpaceTimeFESpace(fes1, ScalarTimeFE(k_t))` with `k_t = 1` as set in
intlset.ipynb cell 9: one spatial coefficient vector per temporal node,
here the two nodes `tref = 0` (bottom) and `tref = 1` (top). -/
structure SpaceTimeGF (n : ℕ) where
  bottom : Fin n → ℚ
  top : Fin n → ℚ

/-- Evaluation of a nodal-in-time (`k_t = 1`) space-time grid function at a
reference time via the nodal Lagrange basis `{1 - tref, tref}`. -/
def stEval (n : ℕ) (g : SpaceTimeGF n) (tref : ℚ) : Fin n → ℚ :=
  fun i => (1 - tref) * g.bottom i + tref * g.top i

/-- Modelled from the spec: `RestrictGFInTime(spacetime_gf, reference_time,
space_gf)` — extraction of the spatial field of a space-time grid function
at a fixed reference time (spec 4.1). -/
def RestrictGFInTime (n : ℕ) (g : SpaceTimeGF n) (tref : ℚ) : Fin n → ℚ :=
  stEval n g tref

/-- Source intlset.ipynb cell 53 (`FinalizeStep`):
`RestrictGFInTime(spacetime_gf=gfu, reference_time=1.0, space_gf=u_last)` —
the slab solution restricted at reference time 1 becomes `u_last`, which
cell 45 then feeds to the next slab through the bottom-trace linear form
`u_last * fix_t(v, 0)`. -/
def FinalizeStep (n : ℕ) (gfu : SpaceTimeGF n) : Fin n → ℚ :=
  RestrictGFInTime n gfu 1

/-- C5: the top trace of one slab equals the bottom input of the next.
Restricting the slab solution at reference time 1 yields exactly the top
nodal coefficients (the trace operator of the nodal-in-time space is exact
at the node); the physical instant `tref = 1` of slab `[told, told+Δt]` is
the physical instant `tref = 0` of the next slab; and the next slab built
on the restricted field evaluates at reference time 0 to the same field. -/
theorem slab_round_trip (n : ℕ) (gfu : SpaceTimeGF n)
    (told delta_t delta_t' : ℚ) (nextTop : Fin n → ℚ) :
    (∀ i, FinalizeStep n gfu i = gfu.top i) ∧
    (∀ i, RestrictGFInTime n gfu 0 i = gfu.bottom i) ∧
    physTime told delta_t 1 = physTime (told + delta_t) delta_t' 0 ∧
    (∀ i, stEval n ⟨FinalizeStep n gfu, nextTop⟩ 0 i = stEval n gfu 1 i) := by
  refine ⟨?_, ?_, ?_, ?_⟩
  · intro i
    show (1 - 1) * gfu.bottom i + 1 * gfu.top i = gfu.top i
    ring
  · intro i
    show (1 - 0) * gfu.bottom i + 0 * gfu.top i = gfu.bottom i
    ring
  · show told + delta_t * 1 = told + delta_t + delta_t' * 0
    ring
  · intro i
    show (1 - 0) * ((1 - 1) * gfu.bottom i + 1 * gfu.top i) + 0 * nextTop i =
      (1 - 1) * gfu.bottom i + 1 * gfu.top i
    ring

/-- An interior facet of the background mesh, identified by its two
adjacent elements. -/
structure Facet (m : ℕ) where
  el1 : Fin m
  el2 : Fin m

/-- Modelled from the spec: `GetFacetsWithNeighborTypes(mesh, a, b)` —
all facets with one adjacent element in classification set `a` and the
other in set `b`, or vice versa (spec 4.2, facet derivation). -/
def GetFacetsWithNeighborTypes (m : ℕ) (a b : Fin m → Bool)
    (f : Facet m) : Bool :=
  (a f.el1 && b f.el2) || (a f.el2 && b f.el1)

/-- A facet-patch integrator: the facet set it is currently defined on
(`SetDefinedOnElements`) together with the assembly machinery modelled by
`assemblePatchTerm` below. -/
structure PatchIntegrator (m : ℕ) where
  definedOn : Facet m → Bool

/-- Source intlset.ipynb cell 49 (`UpdateLinearSystems`): the facets for
stabilization are recomputed as `GetFacetsWithNeighborTypes(mesh,
a=ci.GetElementsOfType(HASNEG), b=ci.GetElementsOfType(IF))` and installed
into the patch integrator via `SetDefinedOnElements`. -/
def UpdateLinearSystems (m : ℕ) (hasneg ifelts : Fin m → Bool)
    (p : PatchIntegrator m) : PatchIntegrator m :=
  { p with definedOn := GetFacetsWithNeighborTypes m hasneg ifelts }

/-- Assembly of a facet-patch bilinear-form term: each facet of the mesh
contributes its local form iff the integrator is defined on it. -/
def assemblePatchTerm (m : ℕ) (p : PatchIntegrator m)
    (facets : List (Facet m)) (localForm : Facet m → ℚ) : ℚ :=
  (facets.map (fun f => if p.definedOn f then localForm f else 0)).sum

/-- Source intlset.ipynb cell 41: the ghost-penalty local form
`coef_delta_t * 0.05 * h^(-2) * (u - u.Other()) * (v - v.Other())`,
evaluated on the trial/test values `uSelf/uOther`, `vSelf/vOther` of the
two elements adjacent to the facet. -/
def ghostPenaltyLocalForm (delta_t h uSelf uOther vSelf vOther : ℚ) : ℚ :=
  delta_t * (5/100) * h ^ (-2 : ℤ) * (uSelf - uOther) * (vSelf - vOther)

/-- C4: the ghost-penalty form is evaluated exactly on the facet set
returned by `GetFacetsWithNeighborTypes(mesh, a = HASNEG, b = IF)` — that
set holds precisely the facets with one adjacent element in `a` and the
other in `b` or vice versa, `UpdateLinearSystems` installs it as the patch
integrator's domain, assembly sums the local form over exactly those
facets — and the local form penalizes the jump `(u - u.Other())*(v -
v.Other())` scaled by the weight 0.05, by `h^(-2)` and by the slab length
`coef_delta_t`: it is invariant under shifting both traces by a common
value (it sees only the jumps) and equals the explicit scaled product. -/
theorem ghostPenalty_domain_and_form (m : ℕ) (hasneg ifelts : Fin m → Bool)
    (p : PatchIntegrator m) (facets : List (Facet m))
    (localForm : Facet m → ℚ) (delta_t h uS uO vS vO s t : ℚ) (hh : h ≠ 0) :
    (∀ f : Facet m, GetFacetsWithNeighborTypes m hasneg ifelts f = true ↔
      ((hasneg f.el1 = true ∧ ifelts f.el2 = true) ∨
       (hasneg f.el2 = true ∧ ifelts f.el1 = true))) ∧
    (UpdateLinearSystems m hasneg ifelts p).definedOn =
      GetFacetsWithNeighborTypes m hasneg ifelts ∧
    assemblePatchTerm m (UpdateLinearSystems m hasneg ifelts p) facets
        localForm =
      ((facets.filter
          (fun f => GetFacetsWithNeighborTypes m hasneg ifelts f)).map
        localForm).sum ∧
    (∀ f : Facet m, GetFacetsWithNeighborTypes m hasneg ifelts f = false →
      (if (UpdateLinearSystems m hasneg ifelts p).definedOn f then
        localForm f else 0) = 0) ∧
    ghostPenaltyLocalForm delta_t h (uS + s) (uO + s) (vS + t) (vO + t) =
      ghostPenaltyLocalForm delta_t h uS uO vS vO ∧
    ghostPenaltyLocalForm delta_t h uS uO vS vO =
      delta_t * (5/100) * (uS - uO) * (vS - vO) / h ^ 2 := by
  refine ⟨?_, rfl, ?_, ?_, ?_, ?_⟩
  · intro f
    simp [GetFacetsWithNeighborTypes]
  · unfold assemblePatchTerm
    induction facets with
    | nil => rfl
    | cons f fs ih =>
      rcases hf : GetFacetsWithNeighborTypes m hasneg ifelts f with _ | _
      · simpa [UpdateLinearSystems, hf] using ih
      · simpa [UpdateLinearSystems, hf] using ih
  · intro f hf
    simp [UpdateLinearSystems, hf]
  · unfold ghostPenaltyLocalForm
    ring
  · unfold ghostPenaltyLocalForm
    rw [zpow_neg, zpow_two]
    field_simp
    exact Or.inl (pow_two h)

theorem ghostPenalty_domain_and_form_witness :
    ghostPenaltyLocalForm 1 1 2 0 3 0 =
      1 * (5/100) * (2 - 0) * (3 - 0) / 1 ^ 2 :=
  (ghostPenalty_domain_and_form 1 (fun _ => true) (fun _ => true)
    ⟨fun _ => false⟩ [] (fun _ => 1) 1 1 2 0 3 0 0 0
    (by norm_num)).2.2.2.2.2

/-- Events of the refinement/convergence drivers (intlset.ipynb cells
21/23 and CutFEM.ipynb cell 51), in straight-line program order. -/
inductive DriverEvent where
  | calcDeformation
  | integrateUncurved (key : DomainTag)
  | setDeformation
  | integrateCurved (key : DomainTag)
  | unsetDeformation
  | refineAtLevelSet
  | meshRefine
  deriving DecidableEq

/-- The mesh deformation state machine: `SetDeformation` activates the
deformation, `UnsetDeformation` deactivates it, every other driver call
leaves it unchanged. -/
def deformStep (active : Bool) : DriverEvent → Bool
  | DriverEvent.setDeformation => true
  | DriverEvent.unsetDeformation => false
  | _ => active

/-- Scans a driver trace and checks the deformation discipline: every
topology-changing operation (`RefineAtLevelSet`, `mesh.Refine`) happens
while the deformation is inactive, and every curved (deformed) integration
happens while it is active. -/
def checkDeformDiscipline : Bool → List DriverEvent → Bool
  | _, [] => true
  | active, e :: rest =>
    (match e with
     | DriverEvent.meshRefine => !active
     | DriverEvent.refineAtLevelSet => !active
     | DriverEvent.integrateCurved _ => active
     | _ => true) && checkDeformDiscipline (deformStep active e) rest

/-- Source intlset.ipynb cell 23, inner loop body for one `key`:
`deformation = lsetmeshadap.CalcDeformation(levelset)`, uncurved
`Integrate`, `mesh.SetDeformation(deformation)`, curved `Integrate`,
`mesh.UnsetDeformation()`. -/
def keyBlock (key : DomainTag) : List DriverEvent :=
  [DriverEvent.calcDeformation, DriverEvent.integrateUncurved key,
   DriverEvent.setDeformation, DriverEvent.integrateCurved key,
   DriverEvent.unsetDeformation]

/-- Source intlset.ipynb cell 23, one pass of the refinement loop:
`if reflevel > 0: mesh.Refine()`, then the key loop over `[NEG, POS, IF]`,
then `RefineAtLevelSet(gf=lsetmeshadap.lset_p1)`. -/
def refLevelTrace (reflevel : ℕ) : List DriverEvent :=
  (if reflevel = 0 then [] else [DriverEvent.meshRefine]) ++
    (([DomainTag.NEG, DomainTag.POS, DomainTag.IF].map keyBlock).flatten ++
      [DriverEvent.refineAtLevelSet])

/-- Source intlset.ipynb cell 23: the whole convergence driver,
`for reflevel in range(refinements)`. -/
def convergenceTrace (refinements : ℕ) : List DriverEvent :=
  ((List.range refinements).map refLevelTrace).flatten

/-- Source CutFEM.ipynb cell 51: `deform = lsetad.CalcDeformation(levelset);
mesh.SetDeformation(deform); a.Assemble(); f.Assemble();
SolveLinearSystem(); ComputeError(); mesh.UnsetDeformation()` — the
assembly and the error integrals are the curved integrations. -/
def cutfemDeformTrace : List DriverEvent :=
  [DriverEvent.calcDeformation, DriverEvent.setDeformation,
   DriverEvent.integrateCurved DomainTag.NEG,
   DriverEvent.integrateCurved DomainTag.POS,
   DriverEvent.integrateCurved DomainTag.IF,
   DriverEvent.unsetDeformation]

theorem deformAfter_append (b : Bool) (xs ys : List DriverEvent) :
    checkDeformDiscipline b (xs ++ ys) =
      (checkDeformDiscipline b xs &&
       checkDeformDiscipline (xs.foldl deformStep b) ys) := by
  induction xs generalizing b with
  | nil => simp [checkDeformDiscipline]
  | cons e rest ih =>
    simp only [List.cons_append, checkDeformDiscipline, List.foldl_cons,
      List.append_eq]
    rw [ih (deformStep b e), Bool.and_assoc]

theorem refLevelTrace_discipline (r : ℕ) :
    checkDeformDiscipline false (refLevelTrace r) = true ∧
    (refLevelTrace r).foldl deformStep false = false := by
  rcases Nat.eq_zero_or_pos r with h | h
  · subst h
    constructor <;> rfl
  · have hne : ¬ (r = 0) := Nat.pos_iff_ne_zero.mp h
    unfold refLevelTrace
    rw [if_neg hne]
    constructor <;> rfl

theorem convergenceTrace_deform_end (k : ℕ) :
    (convergenceTrace k).foldl deformStep false = false := by
  induction k with
  | zero => rfl
  | succ j ihj =>
    unfold convergenceTrace
    rw [List.range_succ, List.map_append, List.flatten_append,
      List.foldl_append]
    have hj : (((List.range j).map refLevelTrace).flatten).foldl
        deformStep false = false := ihj
    rw [hj]
    simpa using (refLevelTrace_discipline j).2

/-- C8: in every execution of the refinement/convergence drivers — the
intlset convergence driver for any number of refinement levels, and the
CutFEM high-order accuracy cell — the deformation discipline holds: a mesh
deformation is never active during `RefineAtLevelSet` or `mesh.Refine`,
every curved integration occurs strictly between a `SetDeformation` and its
matching `UnsetDeformation`, and each driver ends with the deformation
unset. -/
theorem deformation_set_unset_discipline (refinements : ℕ) :
    checkDeformDiscipline false (convergenceTrace refinements) = true ∧
    (convergenceTrace refinements).foldl deformStep false = false ∧
    checkDeformDiscipline false cutfemDeformTrace = true ∧
    cutfemDeformTrace.foldl deformStep false = false := by
  refine ⟨?_, convergenceTrace_deform_end refinements, rfl, rfl⟩
  induction refinements with
  | zero => rfl
  | succ k ih =>
    unfold convergenceTrace
    rw [List.range_succ, List.map_append, List.flatten_append]
    rw [deformAfter_append]
    have hstate : ((List.range k).map refLevelTrace).flatten.foldl
        deformStep false = false := convergenceTrace_deform_end k
    rw [hstate]
    have hc : checkDeformDiscipline false
        ((List.range k).map refLevelTrace).flatten = true := ih
    rw [hc]
    simp [(refLevelTrace_discipline k).1]

theorem lsetSign_antitone (conv : Bool) (v w : ℚ) (hle : w ≤ v)
    (hv : lsetSign conv v = true) : lsetSign conv w = true := by
  unfold lsetSign at hv ⊢
  rcases lt_trichotomy w 0 with h | h | h
  · rw [if_pos h]
  · subst h
    rcases lt_trichotomy v 0 with hv0 | hv0 | hv0
    · linarith
    · subst hv0
      simpa using hv
    · rw [if_neg (lt_irrefl 0), if_pos rfl]
      rw [if_neg (by linarith : ¬ v < 0), if_neg (by linarith : ¬ v = 0)] at hv
      exact absurd hv (by simp)
  · exfalso
    have hv0 : 0 < v := lt_of_lt_of_le h hle
    rw [if_neg (by linarith : ¬ v < 0), if_neg (by linarith : ¬ v = 0)] at hv
    exact absurd hv (by simp)

/-- Source MoL_TraceFEM.ipynb cell 11 (`UpdateBand`): the element band is
`(POS ∪ IF of CutInfo(InterpolateToP1(lset + offset)))` intersected with
`(NEG ∪ IF of CutInfo(InterpolateToP1(lset - offset)))`.  `lset` is the
nodal value map of the P1 interpolant (P1 interpolation is nodal, so the
interpolant of `lset ± offset` has nodal values `lset v ± offset`), and
`elemVerts e` lists the vertices of element `e`. -/
def UpdateBand (conv : Bool) (m k : ℕ) (elemVerts : Fin m → List (Fin k))
    (lset : Fin k → ℚ) (offset : ℚ) : Fin m → Bool :=
  fun e =>
    let cP := classifyElement conv ((elemVerts e).map (fun v => lset v + offset))
    let cM := classifyElement conv ((elemVerts e).map (fun v => lset v - offset))
    (decide (cP = DomainTag.POS) || decide (cP = DomainTag.IF)) &&
      (decide (cM = DomainTag.NEG) || decide (cM = DomainTag.IF))

/-- Source MoL_TraceFEM.ipynb cell 15: `ba_new_IF = ci.GetElementsOfType(IF)`
for `ci = CutInfo(mesh, lset_approx)` with `lset_approx` the P1 interpolant
of the current level set — the interface integration element set. -/
def baNewIF (conv : Bool) (m k : ℕ) (elemVerts : Fin m → List (Fin k))
    (lset : Fin k → ℚ) : Fin m → Bool :=
  fun e => decide (classifyElement conv ((elemVerts e).map lset) = DomainTag.IF)

/-- C9: for every level-set field and every offset ≥ 0, the band computed by
`UpdateBand` contains every element classified IF by CutInfo for the field
itself, so in every time step of the TraceFEM loop the interface
integration set `ba_new_IF` is a subset of the active/stabilization band
`ba_band_IF`. -/
theorem band_coverage_invariant (conv : Bool) (m k : ℕ)
    (elemVerts : Fin m → List (Fin k)) (lset : Fin k → ℚ) (offset : ℚ)
    (hoff : 0 ≤ offset) (e : Fin m)
    (hif : baNewIF conv m k elemVerts lset e = true) :
    UpdateBand conv m k elemVerts lset offset e = true := by
  have hcls : classifyElement conv ((elemVerts e).map lset) = DomainTag.IF := by
    simpa [baNewIF] using hif
  obtain ⟨hn, hp⟩ := (classifyElement_eq_IF_iff conv _).mp hcls
  obtain ⟨vn, hvn, hsn⟩ := (elemHasNeg_iff conv _).mp hn
  obtain ⟨vp, hvp, hsp⟩ := (elemHasPos_iff conv _).mp hp
  obtain ⟨un, hun, hunv⟩ := List.mem_map.mp hvn
  obtain ⟨up, hup, hupv⟩ := List.mem_map.mp hvp
  have hPpos : elemHasPos conv ((elemVerts e).map (fun v => lset v + offset)) = true := by
    apply (elemHasPos_iff conv _).mpr
    refine ⟨lset up + offset, List.mem_map.mpr ⟨up, hup, rfl⟩, ?_⟩
    rcases hsq : lsetSign conv (lset up + offset) with _ | _
    · rfl
    · exfalso
      have := lsetSign_antitone conv (lset up + offset) (lset up)
        (by linarith) hsq
      rw [hupv] at this
      rw [this] at hsp
      exact absurd hsp (by simp)
  have hMneg : elemHasNeg conv ((elemVerts e).map (fun v => lset v - offset)) = true := by
    apply (elemHasNeg_iff conv _).mpr
    refine ⟨lset un - offset, List.mem_map.mpr ⟨un, hun, rfl⟩, ?_⟩
    apply lsetSign_antitone conv (lset un) _ (by linarith)
    rw [hunv]
    exact hsn
  unfold UpdateBand
  have hP : classifyElement conv ((elemVerts e).map (fun v => lset v + offset)) =
      DomainTag.POS ∨
      classifyElement conv ((elemVerts e).map (fun v => lset v + offset)) =
      DomainTag.IF := by
    unfold classifyElement
    rcases hn' : elemHasNeg conv ((elemVerts e).map (fun v => lset v + offset)) with _ | _
    · rw [if_neg (by simp [hn'])]
      exact Or.inl rfl
    · rw [if_pos (by simp [hn']), if_pos (by simp [hPpos])]
      exact Or.inr rfl
  have hM : classifyElement conv ((elemVerts e).map (fun v => lset v - offset)) =
      DomainTag.NEG ∨
      classifyElement conv ((elemVerts e).map (fun v => lset v - offset)) =
      DomainTag.IF := by
    unfold classifyElement
    rw [if_pos (by simp [hMneg])]
    rcases hp' : elemHasPos conv ((elemVerts e).map (fun v => lset v - offset)) with _ | _
    · rw [if_neg (by simp [hp'])]
      exact Or.inl rfl
    · rw [if_pos (by simp [hp'])]
      exact Or.inr rfl
  rcases hP with h | h <;> rcases hM with h' | h' <;> simp [h, h']

theorem band_coverage_invariant_witness :
    UpdateBand true 1 2 (fun _ => [0, 1])
      (fun v => if v = 0 then -1 else 1) (1/2) 0 = true :=
  band_coverage_invariant true 1 2 (fun _ => [0, 1])
    (fun v => if v = 0 then -1 else 1) (1/2) (by norm_num) 0 (by decide)

/-- A point of the 2D background domain. -/
abbrev Pt := ℚ × ℚ

/-- Helper for cyclic edge traversal of a polygon vertex list: pairs of
consecutive entries, closing back to `first`. -/
def chainPairs {α : Type} (first : α) : List α → List (α × α)
  | [] => []
  | [x] => [(x, first)]
  | x :: y :: xs => (x, y) :: chainPairs first (y :: xs)

/-- The cyclic consecutive-vertex pairs (the directed boundary edges) of a
polygon vertex list. -/
def cyclicPairs {α : Type} : List α → List (α × α)
  | [] => []
  | x :: xs => chainPairs x (x :: xs)

/-- Signed area of a triangle (half the cross product of two edge
vectors). -/
def triArea (p q r : Pt) : ℚ :=
  ((q.1 - p.1) * (r.2 - p.2) - (r.1 - p.1) * (q.2 - p.2)) / 2

/-- Signed area of a polygon by the shoelace formula over its cyclic
boundary edges. -/
def shoelace (l : List Pt) : ℚ :=
  ((cyclicPairs l).map (fun pq => pq.1.1 * pq.2.2 - pq.2.1 * pq.1.2)).sum / 2

/-- The point where the linear level-set field with values `a` at `p` and
`b` at `q` vanishes along the segment from `p` to `q` (the sub-cell vertex
inserted on a cut edge; well-posed whenever the two endpoint signs differ,
which forces `a ≠ b`). -/
def cutPt (p q : Pt) (a b : ℚ) : Pt :=
  (p.1 + a / (a - b) * (q.1 - p.1), p.2 + a / (a - b) * (q.2 - p.2))

/-- Modelled from the spec: the CutIntegrator's signed sub-triangulation of
the negative region of one (triangular) element, constructed from the
piecewise-linear level-set values `a, b, c` at the element vertices
(spec 4.3): an uncut NEG element contributes the whole element, an uncut
POS element contributes nothing, and a cut element contributes the one or
two sub-triangles of its negative-side corner triangle or quadrilateral,
with cut vertices interpolated along the directed boundary edges. -/
def negSubTris (conv : Bool) (p0 p1 p2 : Pt) (a b c : ℚ) :
    List (Pt × Pt × Pt) :=
  match lsetSign conv a, lsetSign conv b, lsetSign conv c with
  | true, true, true => [(p0, p1, p2)]
  | false, false, false => []
  | true, false, false => [(p0, cutPt p0 p1 a b, cutPt p2 p0 c a)]
  | false, true, false => [(p1, cutPt p1 p2 b c, cutPt p0 p1 a b)]
  | false, false, true => [(p2, cutPt p2 p0 c a, cutPt p1 p2 b c)]
  | true, true, false =>
    [(p0, p1, cutPt p1 p2 b c), (p0, cutPt p1 p2 b c, cutPt p2 p0 c a)]
  | false, true, true =>
    [(p1, p2, cutPt p2 p0 c a), (p1, cutPt p2 p0 c a, cutPt p0 p1 a b)]
  | true, false, true =>
    [(p2, p0, cutPt p0 p1 a b), (p2, cutPt p0 p1 a b, cutPt p1 p2 b c)]

/-- The positive-side sub-triangulation: the positive region of the field
is the negative region of the negated field, with the zero convention
flipped so that exact zeros stay on the side the convention assigns. -/
def posSubTris (conv : Bool) (p0 p1 p2 : Pt) (a b c : ℚ) :
    List (Pt × Pt × Pt) :=
  negSubTris (!conv) p0 p1 p2 (-a) (-b) (-c)

/-- The interface sub-facet(s) of one element: the segment joining the two
cut points of a cut element, empty for uncut elements. -/
def interfaceSegs (conv : Bool) (p0 p1 p2 : Pt) (a b c : ℚ) :
    List (Pt × Pt) :=
  match lsetSign conv a, lsetSign conv b, lsetSign conv c with
  | true, true, true => []
  | false, false, false => []
  | true, false, false => [(cutPt p0 p1 a b, cutPt p2 p0 c a)]
  | false, true, false => [(cutPt p1 p2 b c, cutPt p0 p1 a b)]
  | false, false, true => [(cutPt p2 p0 c a, cutPt p1 p2 b c)]
  | true, true, false => [(cutPt p1 p2 b c, cutPt p2 p0 c a)]
  | false, true, true => [(cutPt p2 p0 c a, cutPt p0 p1 a b)]
  | true, false, true => [(cutPt p0 p1 a b, cutPt p1 p2 b c)]

/-- One Sutherland–Hodgman clipping step for the directed polygon edge
`P → C` against the region where `keep` holds (vertices carry their
level-set values; inserted crossing points are the `cutPt`s). -/
def clipEdgePts (keep : ℚ → Bool) (P C : Pt × ℚ) : List Pt :=
  match keep P.2, keep C.2 with
  | true, true => [C.1]
  | true, false => [cutPt P.1 C.1 P.2 C.2]
  | false, true => [cutPt P.1 C.1 P.2 C.2, C.1]
  | false, false => []

/-- Reference definition, following the spec's words: the exact polygonal
region cut out of a polygon (given with per-vertex level-set values) by the
half-plane where `keep` holds, via Sutherland–Hodgman clipping of its
cyclic boundary. -/
def clipPoly (keep : ℚ → Bool) (poly : List (Pt × ℚ)) : List Pt :=
  ((cyclicPairs poly).map (fun e => clipEdgePts keep e.1 e.2)).flatten

/-- The boundary crossing points inserted by the clip — the endpoints of
the exact interface inside the polygon. -/
def clipEdgeCuts (keep : ℚ → Bool) (P C : Pt × ℚ) : List Pt :=
  match keep P.2, keep C.2 with
  | true, false => [cutPt P.1 C.1 P.2 C.2]
  | false, true => [cutPt P.1 C.1 P.2 C.2]
  | _, _ => []

/-- All crossing points of the exact clipped region's boundary. -/
def clipCuts (keep : ℚ → Bool) (poly : List (Pt × ℚ)) : List Pt :=
  ((cyclicPairs poly).map (fun e => clipEdgeCuts keep e.1 e.2)).flatten

/-- Reference definition, following the spec's words: the exact area of the
negative region of the linear field on one triangular element — the
shoelace area of the polygon obtained by clipping the element against the
negative half-plane of its linear level-set interpolant. -/
def exactNegArea (conv : Bool) (p0 p1 p2 : Pt) (a b c : ℚ) : ℚ :=
  shoelace (clipPoly (lsetSign conv) [(p0, a), (p1, b), (p2, c)])

/-- Reference definition: the exact area of the positive region (clip
against the complement half-plane). -/
def exactPosArea (conv : Bool) (p0 p1 p2 : Pt) (a b c : ℚ) : ℚ :=
  shoelace (clipPoly (fun v => !lsetSign conv v) [(p0, a), (p1, b), (p2, c)])

/-- The sum of the signed areas of a list of sub-triangles. -/
def subTriListArea (l : List (Pt × Pt × Pt)) : ℚ :=
  (l.map (fun t => triArea t.1 t.2.1 t.2.2)).sum

theorem negSubTris_area_exact (conv : Bool) (p0 p1 p2 : Pt) (a b c : ℚ) :
    subTriListArea (negSubTris conv p0 p1 p2 a b c) =
      exactNegArea conv p0 p1 p2 a b c := by
  unfold negSubTris exactNegArea clipPoly
  rcases h1 : lsetSign conv a <;> rcases h2 : lsetSign conv b <;>
    rcases h3 : lsetSign conv c <;>
    simp only [h1, h2, h3, subTriListArea, shoelace, cyclicPairs, chainPairs,
      clipEdgePts, List.map, List.flatten, List.sum_cons, List.sum_nil,
      triArea, cutPt, List.append_nil, List.nil_append, List.cons_append] <;>
    ring

theorem lsetSign_neg_flip (conv : Bool) (v : ℚ) :
    lsetSign (!conv) (-v) = !(lsetSign conv v) := by
  unfold lsetSign
  rcases lt_trichotomy v 0 with h | h | h
  · rw [if_pos h, if_neg (by linarith : ¬ -v < 0),
      if_neg (by intro hc; linarith : ¬ -v = 0)]
    simp
  · subst h
    norm_num
  · rw [if_pos (by linarith : -v < 0), if_neg (by linarith : ¬ v < 0),
      if_neg (by linarith : ¬ v = 0)]
    simp

theorem cutPt_neg (p q : Pt) (a b : ℚ) : cutPt p q (-a) (-b) = cutPt p q a b := by
  unfold cutPt
  have h : -a - -b = -(a - b) := by ring
  rw [h, neg_div_neg_eq]

theorem posSubTris_area_exact (conv : Bool) (p0 p1 p2 : Pt) (a b c : ℚ) :
    subTriListArea (posSubTris conv p0 p1 p2 a b c) =
      exactPosArea conv p0 p1 p2 a b c := by
  unfold posSubTris negSubTris exactPosArea clipPoly
  rcases h1 : lsetSign conv a <;> rcases h2 : lsetSign conv b <;>
    rcases h3 : lsetSign conv c <;>
    simp only [lsetSign_neg_flip, h1, h2, h3, Bool.not_true, Bool.not_false,
      cutPt_neg, subTriListArea, shoelace, cyclicPairs, chainPairs,
      clipEdgePts, List.map, List.flatten, List.sum_cons, List.sum_nil,
      triArea, List.append_nil, List.nil_append, List.cons_append] <;>
    ring

/-- A quadrature rule on the reference triangle, as supplied by the
external quadrature provider (spec §6): a list of weighted points. -/
structure QuadRule where
  pts : List (ℚ × Pt)

/-- The affine map from the reference triangle onto the triangle
`(p, q, r)`. -/
def mapToTri (p q r : Pt) (xy : Pt) : Pt :=
  (p.1 + xy.1 * (q.1 - p.1) + xy.2 * (r.1 - p.1),
   p.2 + xy.1 * (q.2 - p.2) + xy.2 * (r.2 - p.2))

/-- Modelled from the spec: quadrature of an integrand over one (sub-)
triangle — the reference rule mapped onto the cell with the Jacobian
factor `2 * triArea` (spec 4.3). -/
def quadOnTri (rule : QuadRule) (f : Pt → ℚ) (p q r : Pt) : ℚ :=
  ((rule.pts.map (fun wp => wp.1 * f (mapToTri p q r wp.2))).sum) *
    (2 * triArea p q r)

/-- A rule of integration order ≥ 1: it integrates every affine function
exactly on the reference triangle (whose measure is 1/2 and whose
coordinate integrals are 1/6).  Every quadrature rule of order ≥ 1 in the
sense of the spec satisfies this. -/
def ExactOrderOne (rule : QuadRule) : Prop :=
  ∀ al be ga : ℚ,
    ((rule.pts.map (fun wp => wp.1 * (al + be * wp.2.1 + ga * wp.2.2))).sum) =
      al / 2 + be / 6 + ga / 6

theorem quadOnTri_const (rule : QuadRule) (hrule : ExactOrderOne rule)
    (cc : ℚ) (p q r : Pt) :
    quadOnTri rule (fun _ => cc) p q r = cc * triArea p q r := by
  have h := hrule cc 0 0
  simp only [zero_mul, add_zero] at h
  unfold quadOnTri
  rw [h]
  ring

/-- A (triangular) element of the background mesh. -/
structure MeshElement where
  p0 : Pt
  p1 : Pt
  p2 : Pt

/-- Modelled from the spec: `Integrate(levelset_domain={"levelset": lsetp1,
"domain_type": NEG}, cf, mesh, order)` restricted to an element subset —
for each element of the subset, quadrature of the integrand over the
signed sub-triangulation of the element's negative region; the level-set
data entering the geometry are exactly the nodal values of the
piecewise-linear field `phi` at the element vertices (InterpolateToP1 is
nodal). -/
def IntegrateNeg (conv : Bool) (rule : QuadRule) (phi f : Pt → ℚ)
    (mesh : List MeshElement) (subset : MeshElement → Bool) : ℚ :=
  (mesh.map (fun e =>
    if subset e then
      ((negSubTris conv e.p0 e.p1 e.p2 (phi e.p0) (phi e.p1) (phi e.p2)).map
        (fun t => quadOnTri rule f t.1 t.2.1 t.2.2)).sum
    else 0)).sum

/-- Modelled from the spec: the same with `domain_type = POS`. -/
def IntegratePos (conv : Bool) (rule : QuadRule) (phi f : Pt → ℚ)
    (mesh : List MeshElement) (subset : MeshElement → Bool) : ℚ :=
  (mesh.map (fun e =>
    if subset e then
      ((posSubTris conv e.p0 e.p1 e.p2 (phi e.p0) (phi e.p1) (phi e.p2)).map
        (fun t => quadOnTri rule f t.1 t.2.1 t.2.2)).sum
    else 0)).sum

/-- The endpoints of a list of interface sub-facets. -/
def segEndpoints (l : List (Pt × Pt)) : List Pt :=
  (l.map (fun s => [s.1, s.2])).flatten

theorem quad_sum_const (rule : QuadRule) (hrule : ExactOrderOne rule)
    (cc : ℚ) (l : List (Pt × Pt × Pt)) :
    (l.map (fun t => quadOnTri rule (fun _ => cc) t.1 t.2.1 t.2.2)).sum =
      cc * subTriListArea l := by
  induction l with
  | nil => simp [subTriListArea]
  | cons t ts ih =>
    simp only [List.map_cons, List.sum_cons, subTriListArea] at ih ⊢
    rw [quadOnTri_const rule hrule, ih]
    ring

theorem sum_if_mul_left (cc : ℚ) (mesh : List MeshElement)
    (g : MeshElement → ℚ) (subset : MeshElement → Bool) :
    (mesh.map (fun e => if subset e then cc * g e else 0)).sum =
      cc * (mesh.map (fun e => if subset e then g e else 0)).sum := by
  induction mesh with
  | nil => simp
  | cons e es ih =>
    simp only [List.map_cons, List.sum_cons, ih, mul_add]
    rcases h : subset e <;> simp [h]

theorem IntegrateNeg_exact (conv : Bool) (rule : QuadRule)
    (hrule : ExactOrderOne rule) (phi : Pt → ℚ) (mesh : List MeshElement)
    (subset : MeshElement → Bool) (cc : ℚ) :
    IntegrateNeg conv rule phi (fun _ => cc) mesh subset =
      cc * (mesh.map (fun e => if subset e then
        exactNegArea conv e.p0 e.p1 e.p2 (phi e.p0) (phi e.p1) (phi e.p2)
        else 0)).sum := by
  induction mesh with
  | nil => simp [IntegrateNeg]
  | cons e es ih =>
    simp only [IntegrateNeg, List.map_cons, List.sum_cons] at ih ⊢
    rw [ih, mul_add]
    rcases h : subset e with _ | _
    · simp [h]
    · simp only [h, if_true]
      rw [quad_sum_const rule hrule, negSubTris_area_exact]

theorem IntegratePos_exact (conv : Bool) (rule : QuadRule)
    (hrule : ExactOrderOne rule) (phi : Pt → ℚ) (mesh : List MeshElement)
    (subset : MeshElement → Bool) (cc : ℚ) :
    IntegratePos conv rule phi (fun _ => cc) mesh subset =
      cc * (mesh.map (fun e => if subset e then
        exactPosArea conv e.p0 e.p1 e.p2 (phi e.p0) (phi e.p1) (phi e.p2)
        else 0)).sum := by
  induction mesh with
  | nil => simp [IntegratePos]
  | cons e es ih =>
    simp only [IntegratePos, List.map_cons, List.sum_cons] at ih ⊢
    rw [ih, mul_add]
    rcases h : subset e with _ | _
    · simp [h]
    · simp only [h, if_true]
      rw [quad_sum_const rule hrule, posSubTris_area_exact]

theorem IntegrateNeg_nodal (conv : Bool) (rule : QuadRule)
    (phi psi : Pt → ℚ) (f : Pt → ℚ) (mesh : List MeshElement)
    (subset : MeshElement → Bool)
    (hval : ∀ e ∈ mesh, psi e.p0 = phi e.p0 ∧ psi e.p1 = phi e.p1 ∧
      psi e.p2 = phi e.p2) :
    IntegrateNeg conv rule psi f mesh subset =
      IntegrateNeg conv rule phi f mesh subset := by
  induction mesh with
  | nil => rfl
  | cons e es ih =>
    simp only [IntegrateNeg, List.map_cons, List.sum_cons] at ih ⊢
    obtain ⟨h0, h1, h2⟩ := hval e (by simp)
    rw [h0, h1, h2, ih (fun e' he' => hval e' (by simp [he']))]

theorem interface_endpoints_exact (conv : Bool) (p0 p1 p2 : Pt) (a b c : ℚ)
    (x : Pt) :
    x ∈ segEndpoints (interfaceSegs conv p0 p1 p2 a b c) ↔
      x ∈ clipCuts (lsetSign conv) [(p0, a), (p1, b), (p2, c)] := by
  unfold interfaceSegs clipCuts segEndpoints
  rcases h1 : lsetSign conv a <;> rcases h2 : lsetSign conv b <;>
    rcases h3 : lsetSign conv c <;>
    simp only [h1, h2, h3, cyclicPairs, chainPairs, clipEdgeCuts, List.map,
      List.flatten, List.append_nil, List.nil_append, List.cons_append,
      List.mem_cons, List.not_mem_nil, List.mem_singleton, or_false,
      false_or] <;>
    tauto

theorem cut_value_zero (conv : Bool) (a b : ℚ)
    (h : lsetSign conv a ≠ lsetSign conv b) :
    (1 - a / (a - b)) * a + (a / (a - b)) * b = 0 := by
  have hab : a ≠ b := by
    intro he
    exact h (by rw [he])
  have hne : a - b ≠ 0 := sub_ne_zero.mpr hab
  field_simp
  ring

/-- The squared Euclidean distance of two points (rational). -/
def segLenSq (p q : Pt) : ℚ := (q.1 - p.1) ^ 2 + (q.2 - p.2) ^ 2

/-- The Euclidean length of the segment from `p` to `q` — the
codimension-1 Jacobian of the interface parametrization.  The interface
measure is the one non-rational quantity of the development, so it lives
in `ℝ`. -/
noncomputable def segLen (p q : Pt) : ℝ :=
  Real.sqrt ((segLenSq p q : ℚ) : ℝ)

/-- A quadrature rule on the reference interval `[0,1]`, as supplied by the
external quadrature provider for codimension-1 cells (spec §6). -/
structure QuadRule1 where
  pts : List (ℚ × ℚ)

/-- A 1D rule of integration order ≥ 1: it integrates every affine function
exactly on the reference interval.  Every quadrature rule of order ≥ 1 in
the sense of the spec satisfies this. -/
def ExactOrderOneSeg (r : QuadRule1) : Prop :=
  ∀ al be : ℚ,
    ((r.pts.map (fun wp => wp.1 * (al + be * wp.2))).sum) = al + be / 2

/-- The affine map from the reference interval onto the segment `p q`. -/
def segMap (p q : Pt) (t : ℚ) : Pt :=
  (p.1 + t * (q.1 - p.1), p.2 + t * (q.2 - p.2))

/-- Modelled from the spec: quadrature of an integrand over one interface
sub-facet — the reference rule mapped onto the zero-level-set segment with
the codimension-1 Jacobian `segLen` (spec 4.3). -/
noncomputable def quadOnSeg (r : QuadRule1) (f : Pt → ℚ) (p q : Pt) : ℝ :=
  (((r.pts.map (fun wp => wp.1 * f (segMap p q wp.2))).sum : ℚ) : ℝ) *
    segLen p q

/-- Modelled from the spec: `Integrate(levelset_domain={"levelset": lsetp1,
"domain_type": IF}, cf, mesh, order)` restricted to an element subset —
quadrature of the integrand over the interface sub-facets of each cut
element of the subset. -/
noncomputable def IntegrateIF (conv : Bool) (r : QuadRule1) (phi f : Pt → ℚ)
    (mesh : List MeshElement) (subset : MeshElement → Bool) : ℝ :=
  (mesh.map (fun e =>
    if subset e then
      ((interfaceSegs conv e.p0 e.p1 e.p2
          (phi e.p0) (phi e.p1) (phi e.p2)).map
        (fun s => quadOnSeg r f s.1 s.2)).sum
    else 0)).sum

/-- The length of the segment joining a two-point crossing list; zero for
any other crossing pattern (an uncut element has no crossing points). -/
noncomputable def twoPointLen : List Pt → ℝ
  | [x, y] => segLen x y
  | _ => 0

/-- Reference definition, following the spec's words: the exact measure of
the interface inside one element — the Euclidean length of the segment
joining the two boundary crossing points of the exact clipped region, zero
when the element is uncut. -/
noncomputable def exactIfMeasure (conv : Bool) (p0 p1 p2 : Pt)
    (a b c : ℚ) : ℝ :=
  twoPointLen (clipCuts (lsetSign conv) [(p0, a), (p1, b), (p2, c)])

theorem segLen_symm (p q : Pt) : segLen p q = segLen q p := by
  unfold segLen
  have h : segLenSq p q = segLenSq q p := by
    unfold segLenSq
    ring
  rw [h]

theorem quadOnSeg_const (r : QuadRule1) (hr : ExactOrderOneSeg r) (cc : ℚ)
    (p q : Pt) : quadOnSeg r (fun _ => cc) p q = (cc : ℝ) * segLen p q := by
  have h : (r.pts.map (fun wp => wp.1 * cc)).sum = cc := by
    have h0 := hr cc 0
    simpa using h0
  unfold quadOnSeg
  rw [h]

theorem interfaceMeasure_elem_exact (conv : Bool) (r : QuadRule1)
    (hr : ExactOrderOneSeg r) (cc : ℚ) (p0 p1 p2 : Pt) (a b c : ℚ) :
    ((interfaceSegs conv p0 p1 p2 a b c).map
      (fun s => quadOnSeg r (fun _ => cc) s.1 s.2)).sum =
      (cc : ℝ) * exactIfMeasure conv p0 p1 p2 a b c := by
  unfold interfaceSegs exactIfMeasure clipCuts
  rcases h1 : lsetSign conv a <;> rcases h2 : lsetSign conv b <;>
    rcases h3 : lsetSign conv c <;>
    simp only [h1, h2, h3, cyclicPairs, chainPairs, clipEdgeCuts, List.map,
      List.flatten, List.append_nil, List.nil_append, List.cons_append,
      List.sum_cons, List.sum_nil, twoPointLen, quadOnSeg_const r hr cc] <;>
    (try simp) <;>
    (try exact Or.inl (segLen_symm _ _))

theorem IntegrateIF_exact (conv : Bool) (r : QuadRule1)
    (hr : ExactOrderOneSeg r) (phi : Pt → ℚ) (mesh : List MeshElement)
    (subset : MeshElement → Bool) (cc : ℚ) :
    IntegrateIF conv r phi (fun _ => cc) mesh subset =
      (cc : ℝ) * (mesh.map (fun e => if subset e then
        exactIfMeasure conv e.p0 e.p1 e.p2
          (phi e.p0) (phi e.p1) (phi e.p2)
        else 0)).sum := by
  induction mesh with
  | nil => simp [IntegrateIF]
  | cons e es ih =>
    simp only [IntegrateIF, List.map_cons, List.sum_cons] at ih ⊢
    rw [ih, mul_add]
    rcases h : subset e with _ | _
    · simp [h]
    · simp only [h, if_true]
      rw [interfaceMeasure_elem_exact conv r hr cc]

theorem IntegratePos_nodal (conv : Bool) (rule : QuadRule)
    (phi psi : Pt → ℚ) (f : Pt → ℚ) (mesh : List MeshElement)
    (subset : MeshElement → Bool)
    (hval : ∀ e ∈ mesh, psi e.p0 = phi e.p0 ∧ psi e.p1 = phi e.p1 ∧
      psi e.p2 = phi e.p2) :
    IntegratePos conv rule psi f mesh subset =
      IntegratePos conv rule phi f mesh subset := by
  induction mesh with
  | nil => rfl
  | cons e es ih =>
    simp only [IntegratePos, List.map_cons, List.sum_cons] at ih ⊢
    obtain ⟨h0, h1, h2⟩ := hval e (by simp)
    rw [h0, h1, h2, ih (fun e' he' => hval e' (by simp [he']))]

theorem IntegrateIF_nodal (conv : Bool) (r : QuadRule1)
    (phi psi : Pt → ℚ) (f : Pt → ℚ) (mesh : List MeshElement)
    (subset : MeshElement → Bool)
    (hval : ∀ e ∈ mesh, psi e.p0 = phi e.p0 ∧ psi e.p1 = phi e.p1 ∧
      psi e.p2 = phi e.p2) :
    IntegrateIF conv r psi f mesh subset =
      IntegrateIF conv r phi f mesh subset := by
  induction mesh with
  | nil => rfl
  | cons e es ih =>
    simp only [IntegrateIF, List.map_cons, List.sum_cons] at ih ⊢
    obtain ⟨h0, h1, h2⟩ := hval e (by simp)
    rw [h0, h1, h2, ih (fun e' he' => hval e' (by simp [he']))]

/-- C1: geometric exactness of the CutIntegrator.  For every
piecewise-linear level-set field (given through its nodal values at the
element vertices), every zero-sign convention, every 2D and 1D quadrature
rule of integration order ≥ 1, every element subset and every constant
integrand: the NEG-domain integral equals the integrand times the exact
clipped-polygon area of the negative region summed over the subset (so for
a field describing a polygonal region the computed NEG measure is the
exact polygon area); the same holds for POS; the IF-domain integral equals
the integrand times the exact interface measure (the Euclidean length of
the exact crossing segment of each cut element); all three integrals
depend on the level-set only through its nodal values, not on the
closed-form expression that produced them; the computed interface
sub-facet endpoints are exactly the boundary crossing points of the exact
clipped region; and every cut point lies on the zero level set of the
linear interpolant along its edge. -/
theorem cutIntegrator_geometric_exactness (conv : Bool) (rule : QuadRule)
    (rule1 : QuadRule1) (hrule : ExactOrderOne rule)
    (hrule1 : ExactOrderOneSeg rule1) (phi : Pt → ℚ)
    (mesh : List MeshElement) (subset : MeshElement → Bool) (cc : ℚ) :
    (IntegrateNeg conv rule phi (fun _ => cc) mesh subset =
      cc * (mesh.map (fun e => if subset e then
        exactNegArea conv e.p0 e.p1 e.p2 (phi e.p0) (phi e.p1) (phi e.p2)
        else 0)).sum) ∧
    (IntegratePos conv rule phi (fun _ => cc) mesh subset =
      cc * (mesh.map (fun e => if subset e then
        exactPosArea conv e.p0 e.p1 e.p2 (phi e.p0) (phi e.p1) (phi e.p2)
        else 0)).sum) ∧
    (IntegrateIF conv rule1 phi (fun _ => cc) mesh subset =
      (cc : ℝ) * (mesh.map (fun e => if subset e then
        exactIfMeasure conv e.p0 e.p1 e.p2
          (phi e.p0) (phi e.p1) (phi e.p2)
        else 0)).sum) ∧
    (∀ psi : Pt → ℚ,
      (∀ e ∈ mesh, psi e.p0 = phi e.p0 ∧ psi e.p1 = phi e.p1 ∧
        psi e.p2 = phi e.p2) →
      IntegrateNeg conv rule psi (fun _ => cc) mesh subset =
        IntegrateNeg conv rule phi (fun _ => cc) mesh subset ∧
      IntegratePos conv rule psi (fun _ => cc) mesh subset =
        IntegratePos conv rule phi (fun _ => cc) mesh subset ∧
      IntegrateIF conv rule1 psi (fun _ => cc) mesh subset =
        IntegrateIF conv rule1 phi (fun _ => cc) mesh subset) ∧
    (∀ e : MeshElement, ∀ x : Pt,
      x ∈ segEndpoints (interfaceSegs conv e.p0 e.p1 e.p2
        (phi e.p0) (phi e.p1) (phi e.p2)) ↔
      x ∈ clipCuts (lsetSign conv)
        [(e.p0, phi e.p0), (e.p1, phi e.p1), (e.p2, phi e.p2)]) ∧
    (∀ a b : ℚ, lsetSign conv a ≠ lsetSign conv b →
      (1 - a / (a - b)) * a + (a / (a - b)) * b = 0) :=
  ⟨IntegrateNeg_exact conv rule hrule phi mesh subset cc,
   IntegratePos_exact conv rule hrule phi mesh subset cc,
   IntegrateIF_exact conv rule1 hrule1 phi mesh subset cc,
   fun psi hval =>
     ⟨IntegrateNeg_nodal conv rule phi psi _ mesh subset hval,
      IntegratePos_nodal conv rule phi psi _ mesh subset hval,
      IntegrateIF_nodal conv rule1 phi psi _ mesh subset hval⟩,
   fun e x => interface_endpoints_exact conv e.p0 e.p1 e.p2 _ _ _ x,
   fun a b h => cut_value_zero conv a b h⟩

/-- The one-point centroid rule (order 1) on the reference triangle. -/
def centroidRule : QuadRule := ⟨[(1/2, (1/3, 1/3))]⟩

theorem centroidRule_exact : ExactOrderOne centroidRule := by
  intro al be ga
  simp only [centroidRule, List.map_cons, List.map_nil, List.sum_cons,
    List.sum_nil]
  norm_num
  ring

/-- The one-point midpoint rule (order 1) on the reference interval. -/
def midpointRule : QuadRule1 := ⟨[(1, 1/2)]⟩

theorem midpointRule_exact : ExactOrderOneSeg midpointRule := by
  intro al be
  simp only [midpointRule, List.map_cons, List.map_nil, List.sum_cons,
    List.sum_nil]
  ring

theorem cutIntegrator_geometric_exactness_witness :
    IntegrateNeg true centroidRule (fun v => v.1 - 1/2) (fun _ => 1)
      [⟨(0, 0), (1, 0), (0, 1)⟩] (fun _ => true) =
    1 * (([⟨(0, 0), (1, 0), (0, 1)⟩] : List MeshElement).map
      (fun e => if (fun _ : MeshElement => true) e then
        exactNegArea true e.p0 e.p1 e.p2
          ((fun v : Pt => v.1 - 1/2) e.p0) ((fun v : Pt => v.1 - 1/2) e.p1)
          ((fun v : Pt => v.1 - 1/2) e.p2)
        else 0)).sum :=
  (cutIntegrator_geometric_exactness true centroidRule midpointRule
    centroidRule_exact midpointRule_exact (fun v => v.1 - 1/2)
    [⟨(0, 0), (1, 0), (0, 1)⟩] (fun _ => true) 1).1
